import Mathlib

/-!
Verification development for the writeup-export pipeline (src/main.rs).

The program converts a tree of CTF write-up folders into static-site pages:
per event folder it parses `meta.toml`, joins each declared challenge with its
`<key>.md` body, optionally rewrites root-relative Markdown links, generates
Zola- or Hugo-dialect front matter, composes an index page (with heading
demotion of embedded bodies) and individual challenge pages, and copies all
non-descriptor, non-`.md` files as assets.

The definitions below are a shallow embedding of that code: the filesystem is
a list of (relative path, content) pairs, writes are collected into a list,
and the `?` error propagation of `process_input_folder` becomes explicit
result passing.
-/

/-- Output dialect selector, from `enum OutputType { Zola, Hugo }`. -/
inductive OutputType where
  | Zola : OutputType
  | Hugo : OutputType
deriving DecidableEq, Repr

/-- One character of Rust's `Debug` formatting for `str` (used by
`format!("{:?}", x)` on tags and authors): double quote and backslash are
backslash-escaped, as are newline, carriage return, tab and NUL.  (Rust also
escapes other control and non-printable characters with `\u` sequences; the
model is exact on strings free of such characters, which is the region all
theorems below use.) -/
def rustDebugChar (c : Char) : List Char :=
  if c = '"' then ['\\', '"']
  else if c = '\\' then ['\\', '\\']
  else if c = '\n' then ['\\', 'n']
  else if c = '\r' then ['\\', 'r']
  else if c = '\t' then ['\\', 't']
  else if c = Char.ofNat 0 then ['\\', '0']
  else [c]

/-- Rust's `format!("{:?}", s)` for a string slice: the escaped characters
wrapped in double quotes. -/
def rustDebugStr (s : String) : String :=
  ⟨'"' :: (s.data.map rustDebugChar).flatten ++ ['"']⟩

/-- `tags.iter().map(|x| format!("{:?}", x)).collect::<Vec<_>>().join(",")`
from `make_front_matter`. -/
def joinQuoted (xs : List String) : String :=
  String.intercalate "," (xs.map rustDebugStr)

/-- `make_front_matter` from src/main.rs: the two `format!` templates for the
Zola and Hugo dialects. -/
def makeFrontMatter (name date : String) (tags authors : List String)
    (ot : OutputType) : String :=
  match ot with
  | .Zola =>
      "+++\ntitle=\"" ++ name ++ "\"\ndate = " ++ date ++
      "\n\n[taxonomies]\ntags = [" ++ joinQuoted tags ++ "]\n+++\n\n\n"
  | .Hugo =>
      "+++\ntitle=\"" ++ name ++ "\"\ndate = " ++ date ++
      "\ntags = [" ++ joinQuoted tags ++ "]\nauthors = [" ++
      joinQuoted authors ++ "]\nlayout = \"post\"\n+++\n\n\n"

example : makeFrontMatter "example" "2022-01-07" ["tag 1 lol"] ["sky"] .Zola =
    "+++\ntitle=\"example\"\ndate = 2022-01-07\n\n[taxonomies]\ntags = [\"tag 1 lol\"]\n+++\n\n\n" := by
  decide

example : joinQuoted ["a", "b"] = "\"a\",\"b\"" := by decide

example : rustDebugStr "a\"b" = "\"a\\\"b\"" := by decide

/-- Splits its input at the first `')'` (the lazy group `(.*?)\)` of the link
regex): returns the characters before it and the remainder after it, failing
on a newline (the regex `.` class excludes `'\n'`) or at end of input. -/
def findClose : List Char → Option (List Char × List Char)
  | [] => none
  | c :: rest =>
    if c = ')' then some ([], rest)
    else if c = '\n' then none
    else (findClose rest).map (fun p => (c :: p.1, p.2))

/-- The literal `](/` separator of the link regex `\[(.*?)\]\(/(.*?)\)`. -/
def sepPat : List Char := [']', '(', '/']

/-- Matching of the regex `\[(.*?)\]\(/(.*?)\)` at a fixed start position,
on the input after the initial `'['`: the lazy first group extends one
non-newline character at a time until the rest of the pattern matches
(`](/` followed by a `findClose` split), exactly the backtracking the regex
engine performs.  Returns (label, target-after-the-slash, rest). -/
def matchLink : List Char → Option (List Char × List Char × List Char)
  | [] => none
  | c :: rest =>
    match (if sepPat.isPrefixOf (c :: rest) then findClose ((c :: rest).drop 3) else none) with
    | some p => some ([], p.1, p.2)
    | none =>
      if c = '\n' then none
      else (matchLink rest).map (fun x => (c :: x.1, x.2.1, x.2.2))

theorem isPrefixOf_exists_append : ∀ (a s : List Char), a.isPrefixOf s = true →
    ∃ u, s = a ++ u := by
  intro a
  induction a with
  | nil => intro s _; exact ⟨s, rfl⟩
  | cons x xs ih =>
    intro s h
    cases s with
    | nil => simp [List.isPrefixOf] at h
    | cons y ys =>
      simp only [List.isPrefixOf, Bool.and_eq_true, beq_iff_eq] at h
      obtain ⟨h1, h2⟩ := h
      obtain ⟨u, hu⟩ := ih ys h2
      exact ⟨u, by rw [h1, hu]; rfl⟩

theorem isPrefixOf_append_self : ∀ (a u : List Char), a.isPrefixOf (a ++ u) = true := by
  intro a
  induction a with
  | nil => intro u; simp [List.isPrefixOf]
  | cons x xs ih => intro u; simp [List.isPrefixOf, ih]

theorem findClose_length : ∀ {s t r : List Char}, findClose s = some (t, r) →
    s.length = t.length + 1 + r.length := by
  intro s
  induction s with
  | nil => intro t r h; simp [findClose] at h
  | cons c cs ih =>
    intro t r h
    unfold findClose at h
    by_cases hc : c = ')'
    · rw [if_pos hc] at h
      cases h
      simp
      omega
    · rw [if_neg hc] at h
      by_cases hn : c = '\n'
      · rw [if_pos hn] at h; exact absurd h (by simp)
      · rw [if_neg hn] at h
        cases hfc : findClose cs with
        | none => rw [hfc] at h; simp at h
        | some p =>
          obtain ⟨t', r'⟩ := p
          rw [hfc] at h
          simp only [Option.map_some'] at h
          cases h
          have := ih hfc
          simp only [List.length_cons]
          omega

theorem matchLink_length : ∀ {s l t r : List Char}, matchLink s = some (l, t, r) →
    s.length = l.length + 3 + (t.length + 1) + r.length := by
  intro s
  induction s with
  | nil => intro l t r h; simp [matchLink] at h
  | cons c cs ih =>
    intro l t r h
    unfold matchLink at h
    by_cases hp : sepPat.isPrefixOf (c :: cs)
    · rw [if_pos hp] at h
      cases hfc : findClose ((c :: cs).drop 3) with
      | some p =>
        obtain ⟨t', r'⟩ := p
        rw [hfc] at h
        simp only at h
        cases h
        have hlen := findClose_length hfc
        have hsep : (c :: cs).length = 3 + ((c :: cs).drop 3).length := by
          obtain ⟨u, hu⟩ := isPrefixOf_exists_append _ _ hp
          rw [hu]; simp [sepPat]; omega
        rw [hsep, hlen]
        simp only [List.length_nil]
        omega
      | none =>
        rw [hfc] at h
        simp only at h
        by_cases hn : c = '\n'
        · rw [if_pos hn] at h; exact absurd h (by simp)
        · rw [if_neg hn] at h
          cases hml : matchLink cs with
          | none => rw [hml] at h; simp at h
          | some x =>
            obtain ⟨l', t', r'⟩ := x
            rw [hml] at h
            simp only [Option.map_some'] at h
            cases h
            have := ih hml
            simp only [List.length_cons]
            omega
    · rw [if_neg hp] at h
      simp only at h
      by_cases hn : c = '\n'
      · rw [if_pos hn] at h; exact absurd h (by simp)
      · rw [if_neg hn] at h
        cases hml : matchLink cs with
        | none => rw [hml] at h; simp at h
        | some x =>
          obtain ⟨l', t', r'⟩ := x
          rw [hml] at h
          simp only [Option.map_some'] at h
          cases h
          have := ih hml
          simp only [List.length_cons]
          omega

/-- Capture-name characters of the regex crate (`is_valid_cap_letter`):
ASCII digits, letters and underscore. -/
def isCapLetter (c : Char) : Bool :=
  ('0' ≤ c && c ≤ '9') || ('a' ≤ c && c ≤ 'z') || ('A' ≤ c && c ≤ 'Z') || c = '_'

/-- Longest run of capture-name characters at the head of the input, and the
remainder after it (the bare `$name` scan of `find_cap_ref`). -/
def takeCapName : List Char → List Char × List Char
  | [] => ([], [])
  | c :: rest =>
    if isCapLetter c then
      ((c :: (takeCapName rest).1), (takeCapName rest).2)
    else ([], c :: rest)

theorem takeCapName_len : ∀ (s : List Char), (takeCapName s).2.length ≤ s.length := by
  intro s
  induction s with
  | nil => simp [takeCapName]
  | cons c cs ih =>
    rw [takeCapName]
    by_cases hc : isCapLetter c
    · rw [if_pos hc]
      exact Nat.le_succ_of_le ih
    · rw [if_neg hc]

/-- Splits a braced capture reference at the first closing brace
(`find_cap_ref_braced`): the name before it and the remainder after it, or
`none` when no closing brace exists. -/
def splitBrace : List Char → Option (List Char × List Char)
  | [] => none
  | c :: rest =>
    if c = '\x7d' then some ([], rest)
    else (splitBrace rest).map (fun pr => (c :: pr.1, pr.2))

theorem splitBrace_length : ∀ {s n r : List Char}, splitBrace s = some (n, r) →
    s.length = n.length + 1 + r.length := by
  intro s
  induction s with
  | nil => intro n r h; simp [splitBrace] at h
  | cons c cs ih =>
    intro n r h
    rw [splitBrace] at h
    by_cases hc : c = '\x7d'
    · rw [if_pos hc] at h
      cases h
      simp
      omega
    · rw [if_neg hc] at h
      cases hsb : splitBrace cs with
      | none => rw [hsb] at h; simp at h
      | some pr =>
        obtain ⟨n', r'⟩ := pr
        rw [hsb] at h
        simp only [Option.map_some'] at h
        cases h
        have := ih hsb
        simp only [List.length_cons]
        omega

/-- Decimal value of an all-digit capture name. -/
def digitsVal (l : List Char) : Nat :=
  l.foldl (fun a c => a * 10 + (c.toNat - '0'.toNat)) 0

/-- Group lookup of the link regex for a parsed capture name: `0` is the
whole match, `1` the label group, `2` the target group; every other number
is an absent group and every non-numeric name an unknown named group, both
replaced by the empty string (`caps.get(i)/caps.name(n)` returning `None`).
Rust's `parse::<u32>` accepts leading zeros, and digit strings too large for
`u32` fall back to named references — empty either way, as here. -/
def capValue (g0 g1 g2 : List Char) (name : List Char) : List Char :=
  if name.all (fun c => '0' ≤ c && c ≤ '9') then
    if digitsVal name = 0 then g0
    else if digitsVal name = 1 then g1
    else if digitsVal name = 2 then g2
    else []
  else []

/-- The regex crate's replacement interpolation (`expand_str`), which
`replace_all` applies to the whole replacement string for every match:
`$$` is a literal dollar; `$name` (longest run of name characters) and
`${name}` (any characters up to the closing brace) are capture references
resolved by `capValue`; a dollar that starts no valid reference — end of
input, empty braced name, unclosed brace — stays literal and scanning
continues right after it. -/
def expandRepl (g0 g1 g2 : List Char) : List Char → List Char
  | [] => []
  | c :: rest =>
    if c = '$' then
      match rest with
      | [] => ['$']
      | c2 :: rest2 =>
        if c2 = '$' then '$' :: expandRepl g0 g1 g2 rest2
        else if c2 = '\x7b' then
          match hsb : splitBrace rest2 with
          | some nr =>
            if nr.1 = [] then '$' :: '\x7b' :: expandRepl g0 g1 g2 rest2
            else capValue g0 g1 g2 nr.1 ++ expandRepl g0 g1 g2 nr.2
          | none => '$' :: '\x7b' :: expandRepl g0 g1 g2 rest2
        else if isCapLetter c2 then
          capValue g0 g1 g2 (takeCapName (c2 :: rest2)).1 ++
            expandRepl g0 g1 g2 (takeCapName (c2 :: rest2)).2
        else '$' :: c2 :: expandRepl g0 g1 g2 rest2
    else c :: expandRepl g0 g1 g2 rest
termination_by s => s.length
decreasing_by
  all_goals simp_wf
  · omega
  · omega
  · have := splitBrace_length hsb
    omega
  · omega
  · exact Nat.lt_of_le_of_lt (takeCapName_len _) (by simp only [List.length_cons]; omega)
  · omega

theorem expandRepl_nil (g0 g1 g2 : List Char) : expandRepl g0 g1 g2 [] = [] := by
  rw [expandRepl.eq_def]

theorem expandRepl_lit (g0 g1 g2 : List Char) (c : Char) (rest : List Char)
    (h : c ≠ '$') :
    expandRepl g0 g1 g2 (c :: rest) = c :: expandRepl g0 g1 g2 rest := by
  rw [expandRepl.eq_def]
  simp only [if_neg h]

theorem expandRepl_capref (g0 g1 g2 : List Char) (c2 : Char) (rest2 : List Char)
    (h1 : c2 ≠ '$') (h2 : c2 ≠ '\x7b') (h3 : isCapLetter c2 = true) :
    expandRepl g0 g1 g2 ('$' :: c2 :: rest2) =
      capValue g0 g1 g2 (takeCapName (c2 :: rest2)).1 ++
        expandRepl g0 g1 g2 (takeCapName (c2 :: rest2)).2 := by
  rw [expandRepl.eq_def]
  simp only [if_neg h1, if_neg h2, if_pos h3, reduceIte]

theorem expandRepl_no_dollar (g0 g1 g2 : List Char) : ∀ (s r : List Char),
    s.all (fun c => c != '$') = true →
    expandRepl g0 g1 g2 (s ++ r) = s ++ expandRepl g0 g1 g2 r := by
  intro s
  induction s with
  | nil => intro r _; rfl
  | cons c cs ih =>
    intro r h
    simp only [List.all_cons, Bool.and_eq_true, bne_iff_ne] at h
    show expandRepl g0 g1 g2 (c :: (cs ++ r)) = _
    rw [expandRepl_lit g0 g1 g2 c _ h.1, ih r h.2]
    rfl

theorem expandRepl_template (g0 l t p : List Char)
    (hp : p.all (fun c => c != '$') = true) :
    expandRepl g0 l t ('[' :: '$' :: '1' :: ']' :: '(' :: '/' :: (p ++ '$' :: '2' :: [')'])) =
      '[' :: (l ++ ']' :: '(' :: '/' :: (p ++ (t ++ [')']))) := by
  rw [expandRepl_lit _ _ _ '[' _ (by decide)]
  rw [expandRepl_capref _ _ _ '1' _ (by decide) (by decide) (by decide)]
  have htc : takeCapName ('1' :: ']' :: '(' :: '/' :: (p ++ '$' :: '2' :: [')'])) =
      (['1'], ']' :: '(' :: '/' :: (p ++ '$' :: '2' :: [')'])) := by
    simp [takeCapName, isCapLetter]
  rw [htc]
  simp only []
  rw [show capValue g0 l t ['1'] = l from rfl]
  rw [expandRepl_lit _ _ _ ']' _ (by decide), expandRepl_lit _ _ _ '(' _ (by decide),
    expandRepl_lit _ _ _ '/' _ (by decide)]
  rw [expandRepl_no_dollar g0 l t p _ hp]
  rw [expandRepl_capref _ _ _ '2' _ (by decide) (by decide) (by decide)]
  have htc2 : takeCapName ('2' :: [')']) = (['2'], [')']) := by
    simp [takeCapName, isCapLetter]
  rw [htc2]
  simp only []
  rw [show capValue g0 l t ['2'] = t from rfl]
  rw [expandRepl_lit _ _ _ ')' _ (by decide), expandRepl_nil]

/-- `url_regex.replace_all(content, &format!("[$1](/{}$2)", prefix))` from
`process_input_folder`, as a left-to-right scan: at each `'['` the regex is
tried; on a match the replacement string `[$1](/` ++ prefix ++ `$2)` is
`$`-expanded by `expandRepl` against the match's capture groups (group 0 the
whole match, group 1 the label, group 2 the target after the slash — note a
`$` inside the prefix is expanded too, exactly as the regex crate does) and
scanning resumes after the match; otherwise the character is copied. -/
def rewriteList (p : List Char) : List Char → List Char
  | [] => []
  | c :: rest =>
    if c = '[' then
      match h : matchLink rest with
      | some (l, t, r) =>
        expandRepl ('[' :: (l ++ ']' :: '(' :: '/' :: (t ++ [')']))) l t
            ('[' :: '$' :: '1' :: ']' :: '(' :: '/' :: (p ++ '$' :: '2' :: [')']))
          ++ rewriteList p r
      | none => c :: rewriteList p rest
    else c :: rewriteList p rest
termination_by s => s.length
decreasing_by
  · simp_wf
    have := matchLink_length h
    omega
  · simp_wf
  · simp_wf

/-- The link-rewriting step of `process_input_folder`: with no
`rewrite_url_prefix` the content is returned as-is, otherwise every regex
match is rewritten. -/
def rewriteUrls (pre : Option String) (content : String) : String :=
  match pre with
  | none => content
  | some p => (rewriteList p.data content.data).asString

example : rewriteUrls none "[label](/target)" = "[label](/target)" := by rfl

example : rewriteUrls none "x" = "x" := by rfl

/-- `b.replace("\n#", "\n##")` from the index-page composition: the
non-overlapping left-to-right replacement of every `"\n#"` occurrence by
`"\n##"`; scanning resumes after the matched `'#'`. -/
def demoteList : List Char → List Char
  | [] => []
  | [c] => [c]
  | c1 :: c2 :: rest =>
    if c1 = '\n' ∧ c2 = '#' then '\n' :: '#' :: '#' :: demoteList rest
    else c1 :: demoteList (c2 :: rest)

/-- String wrapper for `demoteList`. -/
def demote (s : String) : String := (demoteList s.data).asString

example : demote "intro\n# A\n## B\nrest" = "intro\n## A\n### B\nrest" := by decide

example : demote "# A\nrest" = "# A\nrest" := by decide

/-- One step of `slug::slugify` (version 0.1), restricted to ASCII input:
lowercase letters and digits are kept, uppercase letters are lowercased, and
any other character becomes a single `'-'` unless the previous emitted
character already was one (`prev_is_dash`, initially true so no leading dash
is produced).  Rust transliterates non-ASCII characters through `deunicode`
first, which this model does not cover; theorems using `slugify` restrict
keys to ASCII. -/
def slugifyCore : List Char → Bool → List Char
  | [], _ => []
  | c :: rest, prevDash =>
    if ('a' ≤ c ∧ c ≤ 'z') ∨ ('0' ≤ c ∧ c ≤ '9') then c :: slugifyCore rest false
    else if 'A' ≤ c ∧ c ≤ 'Z' then c.toLower :: slugifyCore rest false
    else if prevDash then slugifyCore rest true
    else '-' :: slugifyCore rest true

/-- `slug::slugify`: the core scan followed by popping a single trailing
dash (`if string.ends_with('-') { string.pop(); }`). -/
def slugify (s : String) : String :=
  let raw := slugifyCore s.data true
  (if raw.getLast? = some '-' then raw.dropLast else raw).asString

example : slugify "My chal_1" = "my-chal-1" := by decide

example : slugify "example" = "example" := by decide

example : slugify "  a  " = "a" := by decide

/-- `struct ChallengeMeta { name: String, tags: Option<Vec<String>> }`. -/
structure ChallengeMeta where
  name : String
  tags : Option (List String)
deriving DecidableEq, Repr

/-- `struct CTFMeta`: the event descriptor parsed from `meta.toml`.  The Rust
`challenges` field is a `HashMap`; it is modelled as an association list in
the (arbitrary) order the map iterates. -/
structure CTFMeta where
  name : String
  date : String
  description : Option String
  challenges : List (String × ChallengeMeta)
deriving DecidableEq, Repr

/-- One event folder as the core sees it: the folder name, the result of
reading and TOML-parsing `meta.toml` (`none` models a missing or malformed
descriptor, whose load the Rust code propagates with `?`), and every file
under the folder as (relative path components, content).  Directory walking
and TOML parsing are external collaborators per the spec, so their outcomes
are inputs here. -/
structure EventFolder where
  name : String
  meta : Option CTFMeta
  files : List (List String × String)
deriving DecidableEq, Repr

/-- Run-wide configuration: output dialect (`-t`), author list (`-a`) and
optional URL prefix (`-r`). -/
structure Config where
  outputType : OutputType
  authors : List String
  rewriteUrl : Option String
deriving DecidableEq, Repr

/-- `std::fs::read_to_string` on a relative path inside an event folder:
the content if the file exists (a `none` result models any read failure). -/
def lookupFile (files : List (List String × String)) (p : List String) :
    Option String :=
  (files.find? (fun f => f.1 == p)).map (fun f => f.2)

/-- The challenge-collection chain of `process_input_folder`:
`challenges.iter().map(|(a, b)| ((b, a.clone()), a.clone() + ".md"))`
then `.flat_map(|(a, b)| Some((a, read_to_string(b).ok()?)))`
then the URL rewrite `.map`. -/
def collectChallenges (cfg : Config) (meta : CTFMeta)
    (files : List (List String × String)) :
    List ((ChallengeMeta × String) × String) :=
  (((meta.challenges.map (fun kv => ((kv.2, kv.1), [kv.1 ++ ".md"])))
    |>.filterMap (fun x => (lookupFile files x.2).map (fun body => (x.1, body))))
    |>.map (fun x => (x.1, rewriteUrls cfg.rewriteUrl x.2)))

/-- One entry of the index page:
`format!("# [{}](/{}/{})\n{}", cmeta.name, folder_name, slugify(name), b.replace("\n#", "\n##"))`. -/
def indexEntry (eventName : String) (cmeta : ChallengeMeta) (key : String)
    (body : String) : String :=
  "# [" ++ cmeta.name ++ "](/" ++ eventName ++ "/" ++ slugify key ++ ")\n" ++
    demote body

/-- The index page: event front matter with the fixed `"ctf-writeups"` tag,
the optional description followed by the `<!-- more -->` marker, then the
per-challenge entries joined with `"\n"`. -/
def indexPageOf (cfg : Config) (eventName : String) (meta : CTFMeta)
    (challenges : List ((ChallengeMeta × String) × String)) : String :=
  makeFrontMatter meta.name meta.date ["ctf-writeups"] cfg.authors cfg.outputType
    ++ (match meta.description with
        | some d => d ++ "\n<!-- more -->\n"
        | none => "")
    ++ String.intercalate "\n"
        (challenges.map (fun x => indexEntry eventName x.1.1 x.1.2 x.2))

/-- One challenge page: challenge front matter (challenge name, the event's
date, the challenge's own tags or `vec![]`) directly followed by the
transformed body. -/
def challengePageContent (cfg : Config) (meta : CTFMeta)
    (cmeta : ChallengeMeta) (body : String) : String :=
  makeFrontMatter cmeta.name meta.date (cmeta.tags.getD []) cfg.authors
    cfg.outputType ++ body

/-- The challenge-page writes: for each collected challenge, the file
`<event>/<key>.md` (the raw key, `format!("{}.md", name)`) with its composed
content. -/
def challengePagesOf (cfg : Config) (eventName : String) (meta : CTFMeta)
    (challenges : List ((ChallengeMeta × String) × String)) :
    List (List String × String) :=
  challenges.map
    (fun x => ([eventName, x.1.2 ++ ".md"], challengePageContent cfg meta x.1.1 x.2))

/-- Last path component, `Path::file_name`. -/
def fileName (p : List String) : String := p.getLastD ""

/-- Characters after the last `'.'` of a file name's tail, if any. -/
def afterLastDot : List Char → Option (List Char)
  | [] => none
  | c :: rest =>
    match afterLastDot rest with
    | some e => some e
    | none => if c = '.' then some rest else none

/-- Rust's `Path::extension`: the portion of the file name after the final
`'.'`; `none` when there is no dot, and a leading dot (hidden files) does not
start an extension. -/
def rustExtension (name : String) : Option String :=
  match name.data with
  | [] => none
  | _ :: rest => (afterLastDot rest).map List.asString

example : rustExtension "archive.tar.gz" = some "gz" := by decide

example : rustExtension ".gitignore" = none := by decide

example : rustExtension "README" = none := by decide

/-- The asset-collection loop over the directory walk: every file whose name
is not `meta.toml` is kept unless its extension is exactly `md`
(`Some("md") => continue`); files without extension are kept. -/
def assetsOf (files : List (List String × String)) :
    List (List String × String) :=
  files.foldl
    (fun acc f =>
      if fileName f.1 = "meta.toml" then acc
      else
        match rustExtension (fileName f.1) with
        | some e => if e = "md" then acc else acc ++ [f]
        | none => acc ++ [f])
    []

example : assetsOf [(["meta.toml"], "m"), (["example.md"], "b"), (["diagram.png"], "p")] =
    [(["diagram.png"], "p")] := by decide

/-- Processing of one event folder (the body of the `for folder in …` loop):
a failed descriptor load is the propagated `?` error; otherwise the returned
list holds every write the loop performs, in order — `<event>/index.md`, one
`<event>/<key>.md` per collected challenge, then every asset copied to
`<event>/<relative path>` with its source bytes. -/
def processEvent (cfg : Config) (folder : EventFolder) :
    Except String (List (List String × String)) :=
  match folder.meta with
  | none => .error folder.name
  | some meta =>
    let challenges := collectChallenges cfg meta folder.files
    .ok ((([folder.name, "index.md"], indexPageOf cfg folder.name meta challenges)
          :: challengePagesOf cfg folder.name meta challenges)
         ++ (assetsOf folder.files).map (fun f => (folder.name :: f.1, f.2)))

/-- The top-level loop of `process_input_folder` over the (already
`.git`-filtered) event folders: the writes performed before the run stops,
plus the first propagated error if any.  Because every per-event error is
propagated with `?`, a failing descriptor stops the whole loop: folders after
it contribute no writes. -/
def processInputFolder (cfg : Config) : List EventFolder →
    List (List String × String) × Option String
  | [] => ([], none)
  | f :: rest =>
    match processEvent cfg f with
    | .error e => ([], some e)
    | .ok outs =>
      let r := processInputFolder cfg rest
      (outs ++ r.1, r.2)

theorem intercalate_go_cons (s : String) :
    ∀ (bs : List String) (acc b : String),
      String.intercalate.go acc s (b :: bs) = acc ++ s ++ String.intercalate.go b s bs := by
  intro bs
  induction bs with
  | nil => intro acc b; rfl
  | cons c cs ih =>
    intro acc b
    show String.intercalate.go (acc ++ s ++ b) s (c :: cs) = _
    rw [ih (acc ++ s ++ b) c, ih b c]
    simp [String.append_assoc]

theorem intercalate_cons_cons (s a b : String) (l : List String) :
    String.intercalate s (a :: b :: l) = a ++ s ++ String.intercalate s (b :: l) := by
  show String.intercalate.go a s (b :: l) = _
  rw [intercalate_go_cons s l a b]
  rfl

/-- C1: with dialect A (Zola) `make_front_matter` emits a `+++`-delimited
block containing the title, the date and a `[taxonomies]` tags sub-block
(authors ignored); with dialect B (Hugo) a `+++`-delimited block with title,
date, flat tags and authors lists and a fixed `layout = "post"` field; tags
and authors are comma-joined double-quoted strings in input order, an empty
sequence renders as `[]`, and the output ends with two blank lines before
the body. -/
theorem makeFrontMatter_dialect_shape (name date : String)
    (tags authors a1 a2 : List String) :
    makeFrontMatter name date tags a1 .Zola = makeFrontMatter name date tags a2 .Zola
    ∧ makeFrontMatter name date tags authors .Zola =
        "+++\ntitle=\"" ++ name ++ "\"\ndate = " ++ date ++
          "\n\n[taxonomies]\ntags = [" ++ joinQuoted tags ++ "]\n+++\n\n\n"
    ∧ makeFrontMatter name date tags authors .Hugo =
        "+++\ntitle=\"" ++ name ++ "\"\ndate = " ++ date ++ "\ntags = [" ++
          joinQuoted tags ++ "]\nauthors = [" ++ joinQuoted authors ++
          "]\nlayout = \"post\"\n+++\n\n\n"
    ∧ joinQuoted [] = ""
    ∧ (∀ x : String, joinQuoted [x] = rustDebugStr x)
    ∧ (∀ (x y : String) (ys : List String),
        joinQuoted (x :: y :: ys) = rustDebugStr x ++ "," ++ joinQuoted (y :: ys))
    ∧ (∀ s : String, (rustDebugStr s).data.head? = some '"' ∧
        (rustDebugStr s).data.getLast? = some '"')
    ∧ (∀ ot : OutputType, ∃ pre : String,
        makeFrontMatter name date tags authors ot = pre ++ "\n\n\n") := by
  refine ⟨rfl, rfl, rfl, rfl, fun x => rfl, ?_, ?_, ?_⟩
  · intro x y ys
    simp only [joinQuoted, List.map_cons]
    rw [intercalate_cons_cons]
  · intro s
    constructor
    · simp [rustDebugStr]
    · show ('"' :: ((s.data.map rustDebugChar).flatten ++ ['"'])).getLast? = some '"'
      rw [← List.cons_append]
      exact List.getLast?_concat _
  · intro ot
    cases ot
    · refine ⟨"+++\ntitle=\"" ++ name ++ "\"\ndate = " ++ date ++
        "\n\n[taxonomies]\ntags = [" ++ joinQuoted tags ++ "]\n+++", ?_⟩
      simp only [makeFrontMatter]
      rw [show ("]\n+++\n\n\n" : String) = "]\n+++" ++ "\n\n\n" by decide]
      simp [String.append_assoc]
    · refine ⟨"+++\ntitle=\"" ++ name ++ "\"\ndate = " ++ date ++ "\ntags = [" ++
        joinQuoted tags ++ "]\nauthors = [" ++ joinQuoted authors ++
        "]\nlayout = \"post\"\n+++", ?_⟩
      simp only [makeFrontMatter]
      rw [show ("]\nlayout = \"post\"\n+++\n\n\n" : String) =
        "]\nlayout = \"post\"\n+++" ++ "\n\n\n" by decide]
      simp [String.append_assoc]

theorem infix_append_left {α : Type} {l b : List α} (a : List α) (h : l <:+: b) :
    l <:+: a ++ b := by
  obtain ⟨s, u, hs⟩ := h
  exact ⟨a ++ s, u, by rw [← hs]; simp [List.append_assoc]⟩

theorem infix_append_right {α : Type} {l a : List α} (b : List α) (h : l <:+: a) :
    l <:+: a ++ b := by
  obtain ⟨s, u, hs⟩ := h
  exact ⟨s, u ++ b, by rw [← hs]; simp [List.append_assoc]⟩

theorem rustDebugStr_escapes_quote {t : String} (h : '"' ∈ t.data) :
    ['\\', '"'] <:+: (rustDebugStr t).data := by
  obtain ⟨d1, d2, hd⟩ := List.append_of_mem h
  refine ⟨'"' :: (d1.map rustDebugChar).flatten, (d2.map rustDebugChar).flatten ++ ['"'], ?_⟩
  show _ = (rustDebugStr t).data
  simp [rustDebugStr, hd, rustDebugChar]

theorem rustDebugStr_infix_joinQuoted {t : String} :
    ∀ {tags : List String}, t ∈ tags → (rustDebugStr t).data <:+: (joinQuoted tags).data := by
  intro tags
  induction tags with
  | nil => intro h; simp at h
  | cons x xs ih =>
    intro h
    rcases List.mem_cons.mp h with h1 | h2
    · subst h1
      cases xs with
      | nil => exact ⟨[], [], by simp only [List.append_nil, List.nil_append]; rfl⟩
      | cons y ys =>
        have heq : joinQuoted (t :: y :: ys) = rustDebugStr t ++ "," ++ joinQuoted (y :: ys) := by
          simp only [joinQuoted, List.map_cons]
          exact intercalate_cons_cons "," (rustDebugStr t) (rustDebugStr y) (ys.map rustDebugStr)
        rw [heq]
        simp only [String.data_append]
        exact infix_append_right _ (infix_append_right _ (List.infix_refl _))
    · cases xs with
      | nil => simp at h2
      | cons y ys =>
        have heq : joinQuoted (x :: y :: ys) = rustDebugStr x ++ "," ++ joinQuoted (y :: ys) := by
          simp only [joinQuoted, List.map_cons]
          exact intercalate_cons_cons "," (rustDebugStr x) (rustDebugStr y) (ys.map rustDebugStr)
        rw [heq]
        simp only [String.data_append]
        rw [List.append_assoc]
        exact infix_append_left _ (infix_append_left _ (ih h2))

theorem joinQuoted_infix_makeFrontMatter (name date : String)
    (tags authors : List String) (ot : OutputType) :
    (joinQuoted tags).data <:+: (makeFrontMatter name date tags authors ot).data := by
  cases ot
  · exact ⟨("+++\ntitle=\"" ++ name ++ "\"\ndate = " ++ date ++ "\n\n[taxonomies]\ntags = [").data,
      "]\n+++\n\n\n".data, by simp [makeFrontMatter]⟩
  · exact ⟨("+++\ntitle=\"" ++ name ++ "\"\ndate = " ++ date ++ "\ntags = [").data,
      ("]\nauthors = [" ++ joinQuoted authors ++ "]\nlayout = \"post\"\n+++\n\n\n").data,
      by simp [makeFrontMatter]⟩

/-- C8 counterexample: with the tag `a"b` (an embedded double quote) the
generated dialect-A front matter renders the tag with Rust `Debug` escaping,
`"a\"b"`; the unescaped rendering `tags = ["a"b"]` that the claim requires
does not occur in the output. -/
theorem tagQuote_not_unmodified_cex :
    makeFrontMatter "t" "2022-01-07" ["a\"b"] [] .Zola =
      "+++\ntitle=\"t\"\ndate = 2022-01-07\n\n[taxonomies]\ntags = [\"a\\\"b\"]\n+++\n\n\n"
    ∧ ¬ ("tags = [\"a\"b\"]".data <:+:
          (makeFrontMatter "t" "2022-01-07" ["a\"b"] [] .Zola).data) := by
  constructor
  · decide
  · decide

/-- C8 (amended): the generator is total and emits the title verbatim —
unescaped — between `title="` and `"`, but tags (and authors) go through
Rust `Debug` formatting, so a double quote embedded in a tag appears
backslash-escaped in the front matter rather than unmodified. -/
theorem makeFrontMatter_title_verbatim_tag_quote_escaped
    (name date : String) (tags authors : List String) (ot : OutputType) :
    (∃ s u : String, makeFrontMatter name date tags authors ot =
        s ++ ("title=\"" ++ name ++ "\"\ndate = ") ++ u)
    ∧ (∀ t : String, t ∈ tags → '"' ∈ t.data →
        ['\\', '"'] <:+: (makeFrontMatter name date tags authors ot).data) := by
  constructor
  · cases ot
    · refine ⟨"+++\n", date ++ "\n\n[taxonomies]\ntags = [" ++ joinQuoted tags ++
        "]\n+++\n\n\n", ?_⟩
      apply String.ext
      simp [makeFrontMatter, String.data_append]
    · refine ⟨"+++\n", date ++ "\ntags = [" ++ joinQuoted tags ++ "]\nauthors = [" ++
        joinQuoted authors ++ "]\nlayout = \"post\"\n+++\n\n\n", ?_⟩
      apply String.ext
      simp [makeFrontMatter, String.data_append]
  · intro t ht hq
    exact ((rustDebugStr_escapes_quote hq).trans
      (rustDebugStr_infix_joinQuoted ht)).trans
      (joinQuoted_infix_makeFrontMatter name date tags authors ot)

/-- C8 witness: at title `t`, tag list `[a"b]`, the amended theorem applies
and its hypotheses hold. -/
theorem makeFrontMatter_title_verbatim_tag_quote_escaped_witness :
    ['\\', '"'] <:+: (makeFrontMatter "t" "2022-01-07" ["a\"b"] [] .Zola).data :=
  (makeFrontMatter_title_verbatim_tag_quote_escaped "t" "2022-01-07" ["a\"b"] []
    .Zola).2 "a\"b" (by decide) (by decide)

/-- C5: with an absent rewrite prefix the link-rewriting step returns every
input text unchanged — it is the identity function. -/
theorem rewriteUrls_none_identity (text : String) : rewriteUrls none text = text := rfl

/-- Run configuration used by concrete instantiations: Zola dialect, one
author, no URL-rewrite prefix (matching the repository's own test). -/
def cfgEx : Config := ⟨.Zola, ["sky"], none⟩

/-- An event folder whose `meta.toml` fails to load (missing or malformed
descriptor). -/
def badFolder : EventFolder := ⟨"bad-ctf", none, [(["meta.toml"], "not toml")]⟩

/-- A well-formed event descriptor with one challenge. -/
def goodMeta : CTFMeta :=
  ⟨"test lol", "2022-01-07", none, [("example", ⟨"example", some ["tag 1 lol"]⟩)]⟩

/-- A fully loadable event folder whose single challenge body is present. -/
def goodFolder : EventFolder :=
  ⟨"ctf-test", some goodMeta, [(["meta.toml"], "raw"), (["example.md"], "hi lol")]⟩

/-- C2 counterexample: in a run over a folder with a failing descriptor
followed by a fully loadable folder, the run stops at the first folder and
writes nothing — in particular none of the second folder's pages — although
the second folder alone would produce pages. -/
theorem metaFailure_aborts_run_cex :
    processInputFolder cfgEx [badFolder, goodFolder] = ([], some "bad-ctf")
    ∧ (processInputFolder cfgEx [goodFolder]).1 ≠ [] := by
  constructor
  · rfl
  · decide

/-- C2 (amended): a missing or malformed descriptor aborts the entire run at
that event: the loop propagates the load error, so the failing event and
every event folder after it produce no pages at all (per-event isolation is
not implemented). -/
theorem metaFailure_aborts_run (cfg : Config) (bad : EventFolder)
    (rest : List EventFolder) (h : bad.meta = none) :
    processInputFolder cfg (bad :: rest) = ([], some bad.name) := by
  simp [processInputFolder, processEvent, h]

/-- C2 witness: the amended theorem applied to the concrete failing run. -/
theorem metaFailure_aborts_run_witness :
    processInputFolder cfgEx [badFolder, goodFolder] = ([], some "bad-ctf") :=
  metaFailure_aborts_run cfgEx badFolder [goodFolder] rfl

theorem length_filterMap_eq_count {α β : Type} (f : α → Option β) (l : List α) :
    (l.filterMap f).length = (l.filter (fun x => (f x).isSome)).length := by
  induction l with
  | nil => rfl
  | cons x xs ih =>
    cases hf : f x <;> simp [List.filterMap_cons, List.filter_cons, hf, ih]

/-- C3: a loadable event is never aborted by unreadable challenge bodies,
and the number of challenge pages produced equals the number of declared
challenge keys whose `<key>.md` body was readable — the event's output is
exactly one index page, one page per readable challenge, and its assets. -/
theorem challengePages_count_eq_readable (cfg : Config) (folder : EventFolder)
    (m : CTFMeta) (h : folder.meta = some m) :
    (collectChallenges cfg m folder.files).length =
      (m.challenges.filter
        (fun kv => (lookupFile folder.files [kv.1 ++ ".md"]).isSome)).length
    ∧ ∃ outs, processEvent cfg folder = .ok outs ∧
        outs.length = 1 + (collectChallenges cfg m folder.files).length
          + (assetsOf folder.files).length := by
  constructor
  · simp only [collectChallenges, List.length_map]
    rw [List.filterMap_map, length_filterMap_eq_count]
    simp
  · have hpe : processEvent cfg folder = .ok
        ((([folder.name, "index.md"],
            indexPageOf cfg folder.name m (collectChallenges cfg m folder.files))
          :: challengePagesOf cfg folder.name m (collectChallenges cfg m folder.files))
         ++ (assetsOf folder.files).map (fun f => (folder.name :: f.1, f.2))) := by
      simp [processEvent, h]
    refine ⟨_, hpe, ?_⟩
    simp [challengePagesOf]
    omega

/-- A descriptor declaring two challenges, only one of which has a readable
body file in `twoChalFolder`. -/
def twoChalMeta : CTFMeta :=
  ⟨"ev", "2021-01-01", none, [("a", ⟨"A", none⟩), ("b", ⟨"B", none⟩)]⟩

/-- Event folder for `twoChalMeta`: `a.md` exists, `b.md` does not. -/
def twoChalFolder : EventFolder :=
  ⟨"ev", some twoChalMeta, [(["meta.toml"], "m"), (["a.md"], "body a")]⟩

/-- C3 witness: two declared challenges, one readable body — one page. -/
theorem challengePages_count_eq_readable_witness :
    (collectChallenges cfgEx twoChalMeta twoChalFolder.files).length =
      (twoChalMeta.challenges.filter
        (fun kv => (lookupFile twoChalFolder.files [kv.1 ++ ".md"]).isSome)).length :=
  (challengePages_count_eq_readable cfgEx twoChalFolder twoChalMeta rfl).1

/-- Newline-joined rendering of a list of lines. -/
def joinLines : List (List Char) → List Char
  | [] => []
  | l :: ls => l ++ (match ls with | [] => [] | _ :: _ => '\n' :: joinLines ls)

/-- Per-line effect of the `"\n#" → "\n##"` replacement on a non-first
line: a line starting with `'#'` gains one extra `'#'`. -/
def addHash (l : List Char) : List Char :=
  if l.head? = some '#' then '#' :: l else l

/-- Number of leading `'#'` characters of a line — its Markdown heading
level (for heading lines). -/
def leadingHashes : List Char → Nat
  | [] => 0
  | c :: rest => if c = '#' then leadingHashes rest + 1 else 0

theorem demote_pass : ∀ (s r : List Char), '\n' ∉ s →
    demoteList (s ++ r) = s ++ demoteList r := by
  intro s
  induction s with
  | nil => intro r _; rfl
  | cons c cs ih =>
    intro r h
    have hc : c ≠ '\n' := fun hc => h (by simp [hc])
    have hcs : '\n' ∉ cs := fun hm => h (List.mem_cons_of_mem _ hm)
    cases hcr : cs ++ r with
    | nil =>
      obtain ⟨hcs0, hr0⟩ := List.append_eq_nil.mp hcr
      subst hcs0; subst hr0
      rfl
    | cons d t =>
      show demoteList (c :: (cs ++ r)) = _
      rw [hcr]
      have : demoteList (c :: d :: t) = c :: demoteList (d :: t) := by
        simp [demoteList, hc]
      rw [this, ← hcr, ih r hcs]
      rfl

theorem demote_line (l T : List Char) (hl : '\n' ∉ l)
    (hT : T = [] ∨ T.head? = some '\n') :
    demoteList ('\n' :: (l ++ T)) = '\n' :: (addHash l ++ demoteList T) := by
  cases l with
  | nil =>
    simp only [addHash, List.head?_nil, List.nil_append]
    rcases hT with h | h
    · subst h; rfl
    · cases T with
      | nil => rfl
      | cons d t =>
        simp only [List.head?_cons, Option.some.injEq] at h
        subst h
        show demoteList ('\n' :: '\n' :: t) = '\n' :: demoteList ('\n' :: t)
        simp [demoteList]
  | cons c lt =>
    have hlt : '\n' ∉ lt := fun hm => hl (List.mem_cons_of_mem _ hm)
    by_cases hc : c = '#'
    · subst hc
      show demoteList ('\n' :: '#' :: (lt ++ T)) = _
      have : demoteList ('\n' :: '#' :: (lt ++ T)) =
          '\n' :: '#' :: '#' :: demoteList (lt ++ T) := by
        simp [demoteList]
      rw [this, demote_pass lt T hlt]
      simp [addHash]
    · have hcn : c ≠ '\n' := fun hh => hl (hh ▸ List.mem_cons_self _ _)
      show demoteList ('\n' :: c :: (lt ++ T)) = _
      have h1 : demoteList ('\n' :: c :: (lt ++ T)) =
          '\n' :: demoteList (c :: (lt ++ T)) := by
        simp [demoteList, hc]
      rw [h1, show c :: (lt ++ T) = (c :: lt) ++ T from rfl,
        demote_pass (c :: lt) T hl]
      simp [addHash, hc]

theorem demote_tail : ∀ (ls : List (List Char)), (∀ l ∈ ls, '\n' ∉ l) →
    demoteList ('\n' :: joinLines ls) = '\n' :: joinLines (ls.map addHash) := by
  intro ls
  induction ls with
  | nil => intro _; rfl
  | cons l ls' ih =>
    intro h
    have hl : '\n' ∉ l := h l (List.mem_cons_self _ _)
    have hrest : ∀ x ∈ ls', '\n' ∉ x := fun x hx => h x (List.mem_cons_of_mem _ hx)
    cases ls' with
    | nil =>
      show demoteList ('\n' :: (l ++ [])) = '\n' :: (addHash l ++ [])
      rw [demote_line l [] hl (Or.inl rfl)]
      rfl
    | cons x xs =>
      show demoteList ('\n' :: (l ++ ('\n' :: joinLines (x :: xs)))) = _
      rw [demote_line l ('\n' :: joinLines (x :: xs)) hl (Or.inr rfl),
        ih hrest]
      rfl

/-- C6 counterexample: a challenge body beginning with a heading.  The
`"\n#" → "\n##"` replacement only matches after a newline, so the leading
`# A` of the body keeps level 1 in the index copy (and in the index entry it
sits right after the entry's own heading line), contradicting the claim that
every heading level is increased by one. -/
theorem headingDemotion_leading_cex :
    demote "# A\nrest" = "# A\nrest"
    ∧ demote "# A\nrest" ≠ "## A\nrest"
    ∧ indexEntry "ev" ⟨"A", none⟩ "a" "# A\nrest" =
        "# [A](/ev/a)\n# A\nrest" := by
  refine ⟨by decide, by decide, by decide⟩

/-- C6 (amended): heading demotion in the index page raises every Markdown
heading that is preceded by a newline by exactly one level, while the
individual challenge page receives the body verbatim; a heading at the very
start of a body is not demoted (the replacement only matches `"\n#"`). -/
theorem demote_lines (l0 : List Char) (ls : List (List Char))
    (h0 : '\n' ∉ l0) (h : ∀ l ∈ ls, '\n' ∉ l) :
    demoteList (joinLines (l0 :: ls)) = joinLines (l0 :: ls.map addHash)
    ∧ (∀ l : List Char, l.head? = some '#' →
        leadingHashes (addHash l) = leadingHashes l + 1)
    ∧ (∀ (cfg : Config) (m : CTFMeta) (cm : ChallengeMeta) (b : String),
        ∃ fm, challengePageContent cfg m cm b = fm ++ b) := by
  refine ⟨?_, ?_, ?_⟩
  · cases ls with
    | nil =>
      show demoteList (l0 ++ []) = l0 ++ []
      rw [demote_pass l0 [] h0]
      rfl
    | cons x xs =>
      show demoteList (l0 ++ ('\n' :: joinLines (x :: xs))) = _
      rw [demote_pass l0 _ h0, demote_tail (x :: xs) h]
      rfl
  · intro l hl
    cases l with
    | nil => simp at hl
    | cons c lt =>
      simp only [List.head?_cons, Option.some.injEq] at hl
      subst hl
      simp [addHash, leadingHashes]
  · intro cfg m cm b
    exact ⟨_, rfl⟩

/-- C6 witness: a two-line body whose second line is a heading — the heading
after the newline is demoted from level 1 to level 2. -/
theorem demote_lines_witness :
    demoteList ("intro\n# A".data) = ("intro\n## A".data) := by
  have h := (demote_lines "intro".data ["# A".data] (by decide)
    (by intro l hl; simp at hl; subst hl; decide)).1
  have e1 : joinLines ["intro".data, "# A".data] = "intro\n# A".data := by decide
  have e2 : joinLines ("intro".data :: (["# A".data].map addHash)) =
      "intro\n## A".data := by decide
  rw [e1, e2] at h
  exact h

/-- Asset predicate as the amended claim states it: the file's NAME is not
`meta.toml` and its extension is not exactly `md`. -/
def isAssetFile (p : List String) : Bool :=
  fileName p != "meta.toml" && rustExtension (fileName p) != some "md"

theorem assetsOf_go : ∀ (files acc : List (List String × String)),
    files.foldl
      (fun acc f =>
        if fileName f.1 = "meta.toml" then acc
        else
          match rustExtension (fileName f.1) with
          | some e => if e = "md" then acc else acc ++ [f]
          | none => acc ++ [f]) acc
    = acc ++ files.filter (fun f => isAssetFile f.1) := by
  intro files
  induction files with
  | nil => intro acc; simp
  | cons f fs ih =>
    intro acc
    simp only [List.foldl_cons, List.filter_cons]
    by_cases h1 : fileName f.1 = "meta.toml"
    · simp [h1, isAssetFile, ih, List.append_assoc]
    · cases he : rustExtension (fileName f.1) with
      | none => simp [h1, isAssetFile, he, ih, List.append_assoc]
      | some e =>
        by_cases he2 : e = "md"
        · subst he2
          simp [h1, isAssetFile, he, ih, List.append_assoc]
        · simp [h1, isAssetFile, he, he2, ih, List.append_assoc]

/-- C7 counterexample: a file `sub/meta.toml` nested in a subdirectory is
not the event's metadata descriptor and has no `md` extension, yet the code
excludes it from the assets because the exclusion tests the file NAME
(`file_name() != "meta.toml"`) at every depth, not the descriptor path. -/
theorem nestedMetaToml_not_asset_cex :
    assetsOf [(["sub", "meta.toml"], "x")] = []
    ∧ ["sub", "meta.toml"] ≠ ["meta.toml"]
    ∧ rustExtension (fileName ["sub", "meta.toml"]) ≠ some "md" := by
  refine ⟨by decide, by decide, by decide⟩

/-- C7 (amended): exactly those files whose file name is not `meta.toml`
(at any depth, so a nested `sub/meta.toml` is also excluded) and whose
extension is not exactly `md` — including files without extension and files
in nested subdirectories — are classified as assets, and each asset is
copied with its exact source bytes to the same relative path under the
event's output folder. -/
theorem assetsOf_classification (cfg : Config) (folder : EventFolder)
    (m : CTFMeta) (h : folder.meta = some m)
    (files : List (List String × String)) :
    assetsOf files = files.filter (fun f => isAssetFile f.1)
    ∧ ∃ outs, processEvent cfg folder = .ok outs ∧
        ∀ p c, (p, c) ∈ assetsOf folder.files → (folder.name :: p, c) ∈ outs := by
  constructor
  · show files.foldl _ [] = _
    rw [assetsOf_go]
    simp
  · have hpe : processEvent cfg folder = .ok
        ((([folder.name, "index.md"],
            indexPageOf cfg folder.name m (collectChallenges cfg m folder.files))
          :: challengePagesOf cfg folder.name m (collectChallenges cfg m folder.files))
         ++ (assetsOf folder.files).map (fun f => (folder.name :: f.1, f.2))) := by
      simp [processEvent, h]
    refine ⟨_, hpe, ?_⟩
    intro p c hm
    exact List.mem_append.mpr (Or.inr (List.mem_map.mpr ⟨(p, c), hm, rfl⟩))

/-- Event folder with an asset file alongside the descriptor and a
challenge document. -/
def assetFolder : EventFolder :=
  ⟨"ctf-test", some goodMeta,
    [(["meta.toml"], "raw"), (["example.md"], "hi lol"), (["diagram.png"], "PNG")]⟩

/-- C7 witness: on the concrete folder only `diagram.png` is an asset and it
is copied byte-for-byte to the mirrored output path. -/
theorem assetsOf_classification_witness :
    assetsOf assetFolder.files =
      assetFolder.files.filter (fun f => isAssetFile f.1)
    ∧ ∃ outs, processEvent cfgEx assetFolder = .ok outs ∧
        ∀ p c, (p, c) ∈ assetsOf assetFolder.files → ("ctf-test" :: p, c) ∈ outs :=
  assetsOf_classification cfgEx assetFolder goodMeta rfl assetFolder.files

/-- C9: the index entry's heading links to `/<event>/<slugified key>` while
the challenge page itself is written at `<event>/<key>.md` using the raw
key, so for any (ASCII) key that slugification changes — spaces, uppercase,
underscores — the link target differs from the root-relative location of the
written page. -/
theorem indexLink_slug_vs_rawPath (ev key body : String) (cm : ChallengeMeta)
    (cfg : Config) (m : CTFMeta)
    (chs : List ((ChallengeMeta × String) × String)) :
    indexEntry ev cm key body =
      "# [" ++ cm.name ++ "](/" ++ ev ++ "/" ++ slugify key ++ ")\n" ++ demote body
    ∧ challengePagesOf cfg ev m chs =
        chs.map (fun x => ([ev, x.1.2 ++ ".md"], challengePageContent cfg m x.1.1 x.2))
    ∧ (key.data.all (fun c => c.toNat < 128) = true → slugify key ≠ key →
        ("/" ++ ev ++ "/" ++ slugify key) ≠ ("/" ++ ev ++ "/" ++ key))
    ∧ slugify "My chal_1" = "my-chal-1" := by
  refine ⟨rfl, rfl, ?_, by decide⟩
  intro _ hne heq
  apply hne
  have hd := congrArg String.data heq
  simp only [String.data_append, List.append_assoc] at hd
  apply String.ext
  simpa using hd

/-- C9 witness: the key `My chal_1` (spaces, uppercase, underscore) slugifies
to `my-chal-1`, so the index link target differs from the raw-key location. -/
theorem indexLink_slug_vs_rawPath_witness :
    ("/" ++ "test-ctf" ++ "/" ++ slugify "My chal_1") ≠
      ("/" ++ "test-ctf" ++ "/" ++ "My chal_1") :=
  (indexLink_slug_vs_rawPath "test-ctf" "My chal_1" "b" ⟨"A", none⟩ cfgEx goodMeta
    []).2.2.1 (by decide) (by decide)

/-- Lines of a character list, split at every `'\n'`. -/
def splitLines : List Char → List (List Char)
  | [] => [[]]
  | c :: rest =>
    if c = '\n' then [] :: splitLines rest
    else
      match splitLines rest with
      | [] => [[c]]
      | l :: ls => (c :: l) :: ls

/-- The `date = ` field marker of the generated front matter. -/
def datePat : List Char := "date = ".data

/-- Reads the date field back out of a generated page: the first line
starting with `date = `, without that marker. -/
def extractDate (page : List Char) : Option (List Char) :=
  ((splitLines page).find? (fun l => datePat.isPrefixOf l)).map (fun l => l.drop 7)

theorem splitLines_append : ∀ (s r : List Char), '\n' ∉ s →
    splitLines (s ++ '\n' :: r) = s :: splitLines r := by
  intro s
  induction s with
  | nil => intro r _; simp [splitLines]
  | cons c cs ih =>
    intro r h
    have hc : c ≠ '\n' := fun hc => h (by simp [hc])
    have hcs : '\n' ∉ cs := fun hm => h (List.mem_cons_of_mem _ hm)
    show splitLines (c :: (cs ++ '\n' :: r)) = _
    rw [splitLines]
    rw [if_neg hc, ih r hcs]

theorem extractDate_shape (tl d tail : List Char) (htl : '\n' ∉ tl)
    (hd : '\n' ∉ d) (hpref : datePat.isPrefixOf tl = false) :
    extractDate ("+++".data ++ '\n' :: (tl ++ '\n' :: ((datePat ++ d) ++ '\n' :: tail)))
      = some d := by
  unfold extractDate
  rw [splitLines_append _ _ (by decide),
    splitLines_append _ _ htl,
    splitLines_append _ _ (by
      intro hm
      rcases List.mem_append.mp hm with hm | hm
      · exact absurd hm (by decide)
      · exact hd hm)]
  rw [List.find?_cons_of_neg _ (by decide),
    List.find?_cons_of_neg _ (by simp [hpref]),
    List.find?_cons_of_pos _ (isPrefixOf_append_self _ _)]
  simp only [Option.map_some']
  rw [show (7 : Nat) = datePat.length by decide, List.drop_left]

/-- C10: every challenge page's front matter carries the event's date: the
date field read back from a generated challenge page equals the event
descriptor's date, in both dialects (`ChallengeMeta` has no date field of
its own — only `name` and `tags`). -/
theorem challengePage_date_from_event (cfg : Config) (m : CTFMeta)
    (cm : ChallengeMeta) (body : String)
    (hn : '\n' ∉ cm.name.data) (hd : '\n' ∉ m.date.data) :
    extractDate (challengePageContent cfg m cm body).data = some m.date.data := by
  obtain ⟨ot, authors, pre⟩ := cfg
  have htl : '\n' ∉ ("title=\"".data ++ cm.name.data ++ ['"']) := by
    intro hm
    rcases List.mem_append.mp hm with hm | hm
    · rcases List.mem_append.mp hm with hm | hm
      · exact absurd hm (by decide)
      · exact hn hm
    · exact absurd hm (by decide)
  have hpref : datePat.isPrefixOf ("title=\"".data ++ cm.name.data ++ ['"']) = false := by
    simp [datePat, List.isPrefixOf]
  cases ot with
  | Zola =>
    have hdata : (challengePageContent ⟨.Zola, authors, pre⟩ m cm body).data =
        "+++".data ++ '\n' :: (("title=\"".data ++ cm.name.data ++ ['"']) ++ '\n' ::
          ((datePat ++ m.date.data) ++ '\n' ::
            ('\n' :: ("[taxonomies]\ntags = [".data ++
              ((joinQuoted (cm.tags.getD [])).data ++
                ("]\n+++\n\n\n".data ++ body.data)))))) := by
      simp [challengePageContent, makeFrontMatter, datePat, List.append_assoc]
    rw [hdata]
    exact extractDate_shape _ _ _ htl hd hpref
  | Hugo =>
    have hdata : (challengePageContent ⟨.Hugo, authors, pre⟩ m cm body).data =
        "+++".data ++ '\n' :: (("title=\"".data ++ cm.name.data ++ ['"']) ++ '\n' ::
          ((datePat ++ m.date.data) ++ '\n' ::
            ("tags = [".data ++
              ((joinQuoted (cm.tags.getD [])).data ++
                ("]\nauthors = [".data ++
                  ((joinQuoted authors).data ++
                    ("]\nlayout = \"post\"\n+++\n\n\n".data ++ body.data))))))) := by
      simp [challengePageContent, makeFrontMatter, datePat, List.append_assoc]
    rw [hdata]
    exact extractDate_shape _ _ _ htl hd hpref

/-- C10 witness: the concrete challenge page of the repository's own test
carries the event date `2022-01-07`. -/
theorem challengePage_date_from_event_witness :
    extractDate (challengePageContent cfgEx goodMeta
      ⟨"example", some ["tag 1 lol"]⟩ "hi lol").data = some "2022-01-07".data :=
  challengePage_date_from_event cfgEx goodMeta ⟨"example", some ["tag 1 lol"]⟩
    "hi lol" (by decide) (by decide)

theorem rewriteList_nil (p : List Char) : rewriteList p [] = [] := by
  rw [rewriteList]

theorem rewriteList_cons_ne (p : List Char) (c : Char) (rest : List Char)
    (h : c ≠ '[') : rewriteList p (c :: rest) = c :: rewriteList p rest := by
  rw [rewriteList, if_neg h]

theorem rewriteList_cons_match (p rest l t r : List Char)
    (h : matchLink rest = some (l, t, r)) :
    rewriteList p ('[' :: rest) =
      expandRepl ('[' :: (l ++ ']' :: '(' :: '/' :: (t ++ [')']))) l t
          ('[' :: '$' :: '1' :: ']' :: '(' :: '/' :: (p ++ '$' :: '2' :: [')']))
        ++ rewriteList p r := by
  rw [rewriteList, if_pos rfl]
  split
  · next l2 t2 r2 h2 =>
    rw [h] at h2
    cases h2
    rfl
  · next h2 =>
    rw [h] at h2
    cases h2

theorem rewriteList_cons_none (p rest : List Char)
    (h : matchLink rest = none) :
    rewriteList p ('[' :: rest) = '[' :: rewriteList p rest := by
  rw [rewriteList, if_pos rfl]
  split
  · next l2 t2 r2 h2 =>
    rw [h] at h2
    cases h2
  · next h2 => rfl

theorem rewriteList_pass (p : List Char) : ∀ (s r : List Char),
    s.all (fun c => c != '[') = true →
    rewriteList p (s ++ r) = s ++ rewriteList p r := by
  intro s
  induction s with
  | nil => intro r _; rfl
  | cons c cs ih =>
    intro r h
    simp only [List.all_cons, Bool.and_eq_true, bne_iff_ne] at h
    show rewriteList p (c :: (cs ++ r)) = _
    rw [rewriteList_cons_ne p c _ h.1]
    rw [ih r h.2]
    rfl

theorem findClose_append (t1 r : List Char)
    (h : t1.all (fun c => c != ')' && c != '\n') = true) :
    findClose (t1 ++ ')' :: r) = some (t1, r) := by
  induction t1 with
  | nil => simp [findClose]
  | cons c cs ih =>
    simp only [List.all_cons, Bool.and_eq_true, bne_iff_ne] at h
    show findClose (c :: (cs ++ ')' :: r)) = _
    rw [findClose, if_neg h.1.1, if_neg h.1.2, ih h.2]
    rfl

theorem matchLink_root : ∀ (l t1 r : List Char),
    l.all (fun c => c != ']' && c != '\n') = true →
    t1.all (fun c => c != ')' && c != '\n') = true →
    matchLink (l ++ ']' :: '(' :: '/' :: (t1 ++ ')' :: r)) = some (l, t1, r) := by
  intro l
  induction l with
  | nil =>
    intro t1 r _ ht
    show matchLink (']' :: '(' :: '/' :: (t1 ++ ')' :: r)) = _
    rw [matchLink]
    have hp : sepPat.isPrefixOf (']' :: '(' :: '/' :: (t1 ++ ')' :: r)) = true := by
      simp [sepPat, List.isPrefixOf]
    rw [hp]
    simp only [if_true]
    simp only [List.drop_succ_cons, List.drop_zero]
    rw [findClose_append t1 r ht]
  | cons c cs ih =>
    intro t1 r hl ht
    simp only [List.all_cons, Bool.and_eq_true, bne_iff_ne] at hl
    show matchLink (c :: (cs ++ ']' :: '(' :: '/' :: (t1 ++ ')' :: r))) = _
    rw [matchLink]
    have hcc : ']' ≠ c := Ne.symm hl.1.1
    have hp : sepPat.isPrefixOf
        (c :: (cs ++ ']' :: '(' :: '/' :: (t1 ++ ')' :: r))) = false := by
      simp [sepPat, List.isPrefixOf, hcc]
    rw [hp]
    simp only [Bool.false_eq_true, if_false, if_neg hl.1.2]
    rw [ih t1 r hl.2 ht]
    rfl

/-- A scan position is blocked when no `](/` occurrence starts before the
next newline (or the end of input): the lazy label group can never complete
a match from here. -/
def blockedB : List Char → Bool
  | [] => true
  | c :: rest =>
    if c = '\n' then true
    else (!(sepPat.isPrefixOf (c :: rest))) && blockedB rest

theorem matchLink_none_of_blocked : ∀ (s : List Char), blockedB s = true →
    matchLink s = none := by
  intro s
  induction s with
  | nil => intro _; rfl
  | cons c cs ih =>
    intro hb
    rw [blockedB] at hb
    by_cases hn : c = '\n'
    · subst hn
      rw [matchLink]
      have hp : sepPat.isPrefixOf ('\n' :: cs) = false := by
        simp [sepPat, List.isPrefixOf]
      rw [hp]
      simp
    · rw [if_neg hn] at hb
      simp only [Bool.and_eq_true, Bool.not_eq_true'] at hb
      rw [matchLink, hb.1]
      simp only [Bool.false_eq_true, if_false, if_neg hn]
      rw [ih hb.2]
      rfl

theorem blockedB_append_no (s r : List Char)
    (h : s.all (fun c => c != ']' && c != '\n') = true) :
    blockedB (s ++ r) = blockedB r := by
  induction s with
  | nil => rfl
  | cons c cs ih =>
    simp only [List.all_cons, Bool.and_eq_true, bne_iff_ne] at h
    show blockedB (c :: (cs ++ r)) = _
    rw [blockedB, if_neg h.1.2]
    have hcc : ']' ≠ c := Ne.symm h.1.1
    have hp : sepPat.isPrefixOf (c :: (cs ++ r)) = false := by
      simp [sepPat, List.isPrefixOf, hcc]
    rw [hp, ih h.2]
    simp

theorem blockedB_of_nl : ∀ (s r : List Char),
    s.all (fun c => c != ']') = true → s.contains '\n' = true →
    blockedB (s ++ r) = true := by
  intro s
  induction s with
  | nil => intro r _ hm; simp [List.contains] at hm
  | cons c cs ih =>
    intro r h hm
    simp only [List.all_cons, Bool.and_eq_true, bne_iff_ne] at h
    show blockedB (c :: (cs ++ r)) = true
    rw [blockedB]
    by_cases hn : c = '\n'
    · rw [if_pos hn]
    · rw [if_neg hn]
      have hm' : cs.contains '\n' = true := by
        simp only [List.contains_cons] at hm
        rcases Bool.or_eq_true_iff.mp hm with h1 | h1
        · exact absurd (by simpa using h1 : '\n' = c).symm hn
        · exact h1
      have hcc : ']' ≠ c := Ne.symm h.1
      have hp : sepPat.isPrefixOf (c :: (cs ++ r)) = false := by
        simp [sepPat, List.isPrefixOf, hcc]
      rw [hp, ih r h.2 hm']
      simp

theorem matchLink_nonroot_none (l t q : List Char)
    (hl : l.all (fun c => c != ']' && c != '\n') = true)
    (ht : t.all (fun c => c != ']' && c != '\n') = true)
    (htt : t.head? ≠ some '/')
    (hq : blockedB q = true) :
    matchLink (l ++ ']' :: '(' :: (t ++ ')' :: q)) = none := by
  apply matchLink_none_of_blocked
  rw [blockedB_append_no l _ hl]
  rw [blockedB, if_neg (by decide : (']' : Char) ≠ '\n')]
  have hp1 : sepPat.isPrefixOf (']' :: '(' :: (t ++ ')' :: q)) = false := by
    cases t with
    | nil => simp [sepPat, List.isPrefixOf]
    | cons c t1 =>
      have hcn : c ≠ '/' := fun hc => htt (by simp [hc])
      have hcc : '/' ≠ c := Ne.symm hcn
      simp [sepPat, List.isPrefixOf, hcc]
  rw [hp1]
  simp only [Bool.not_false, Bool.true_and]
  rw [blockedB, if_neg (by decide : ('(' : Char) ≠ '\n')]
  have hp2 : sepPat.isPrefixOf ('(' :: (t ++ ')' :: q)) = false := by
    simp [sepPat, List.isPrefixOf]
  rw [hp2]
  simp only [Bool.not_false, Bool.true_and]
  rw [blockedB_append_no t _ ht]
  rw [blockedB, if_neg (by decide : ((')') : Char) ≠ '\n')]
  have hp3 : sepPat.isPrefixOf (')' :: q) = false := by
    simp [sepPat, List.isPrefixOf]
  rw [hp3, hq]
  simp

/-- A structured Markdown text for the link-rewriting claim: plain segments
interleaved with `[label](target)` links. -/
inductive Chunk where
  | plain : List Char → Chunk
  | link : List Char → List Char → Chunk
deriving DecidableEq, Repr

/-- The text a chunk denotes. -/
def renderChunk : Chunk → List Char
  | .plain s => s
  | .link l t => '[' :: (l ++ ']' :: '(' :: (t ++ [')']))

/-- The text a chunk list denotes. -/
def render (cs : List Chunk) : List Char := (cs.map renderChunk).flatten

/-- The per-link effect the spec describes: a link whose target begins with
`/` has `/` + prefix + target-without-leading-slash as its new target; its
label, and links whose target does not start with `/`, are unchanged, as are
plain segments. -/
def rewriteChunk (p : List Char) : Chunk → Chunk
  | .plain s => .plain s
  | .link l t =>
    .link l (if t.head? = some '/' then '/' :: (p ++ t.tail) else t)

/-- Well-formedness of a link label: no square brackets, no newline. -/
def wfLabel (l : List Char) : Bool :=
  l.all (fun c => c != '[' && c != ']' && c != '\n')

/-- Well-formedness of a link target: no square brackets, no closing paren,
no newline. -/
def wfTarget (t : List Char) : Bool :=
  t.all (fun c => c != '[' && c != ']' && c != ')' && c != '\n')

/-- Well-formedness of a plain segment: no square brackets, and it contains
a newline. -/
def wfPlain (s : List Char) : Bool :=
  s.all (fun c => c != '[' && c != ']') && s.contains '\n'

/-- Well-formed structured text: every segment well formed, links
newline-separated (each link is last or followed by a plain segment). -/
def wfChunks : List Chunk → Bool
  | [] => true
  | .plain s :: rest => wfPlain s && wfChunks rest
  | .link l t :: rest =>
    wfLabel l && wfTarget t &&
      (match rest with
       | [] => true
       | .plain _ :: _ => true
       | .link _ _ :: _ => false) && wfChunks rest

theorem render_cons (c : Chunk) (cs : List Chunk) :
    render (c :: cs) = renderChunk c ++ render cs := by
  simp [render]

theorem wfLabel_no_bracket {l : List Char} (h : wfLabel l = true) :
    l.all (fun c => c != '[') = true := by
  simp only [wfLabel, List.all_eq_true, Bool.and_eq_true, bne_iff_ne] at h
  simp only [List.all_eq_true, bne_iff_ne]
  intro x hx
  exact (h x hx).1.1

theorem wfLabel_weak {l : List Char} (h : wfLabel l = true) :
    l.all (fun c => c != ']' && c != '\n') = true := by
  simp only [wfLabel, List.all_eq_true, Bool.and_eq_true, bne_iff_ne] at h
  simp only [List.all_eq_true, Bool.and_eq_true, bne_iff_ne]
  intro x hx
  exact ⟨(h x hx).1.2, (h x hx).2⟩

theorem wfTarget_no_bracket {t : List Char} (h : wfTarget t = true) :
    t.all (fun c => c != '[') = true := by
  simp only [wfTarget, List.all_eq_true, Bool.and_eq_true, bne_iff_ne] at h
  simp only [List.all_eq_true, bne_iff_ne]
  intro x hx
  exact (h x hx).1.1.1

theorem wfTarget_weak {t : List Char} (h : wfTarget t = true) :
    t.all (fun c => c != ']' && c != '\n') = true := by
  simp only [wfTarget, List.all_eq_true, Bool.and_eq_true, bne_iff_ne] at h
  simp only [List.all_eq_true, Bool.and_eq_true, bne_iff_ne]
  intro x hx
  exact ⟨(h x hx).1.1.2, (h x hx).2⟩

theorem wfTarget_close {t : List Char} (h : wfTarget t = true) :
    t.all (fun c => c != ')' && c != '\n') = true := by
  simp only [wfTarget, List.all_eq_true, Bool.and_eq_true, bne_iff_ne] at h
  simp only [List.all_eq_true, Bool.and_eq_true, bne_iff_ne]
  intro x hx
  exact ⟨(h x hx).1.2, (h x hx).2⟩

theorem wfPlain_no_close_bracket {s : List Char} (h : wfPlain s = true) :
    s.all (fun c => c != ']') = true := by
  simp only [wfPlain, Bool.and_eq_true, List.all_eq_true, bne_iff_ne] at h
  simp only [List.all_eq_true, bne_iff_ne]
  intro x hx
  exact (h.1 x hx).2

theorem wfPlain_no_open_bracket {s : List Char} (h : wfPlain s = true) :
    s.all (fun c => c != '[') = true := by
  simp only [wfPlain, Bool.and_eq_true, List.all_eq_true, bne_iff_ne] at h
  simp only [List.all_eq_true, bne_iff_ne]
  intro x hx
  exact (h.1 x hx).1

/-- C4 counterexample: a prefix containing a `$` capture reference.  The
code passes `format!("[$1](/{}$2)", prefix)` to `replace_all`, which
`$`-expands the whole replacement — including the prefix — so with prefix
`$1` the label is substituted into the target: `[label](/target)` becomes
`[label](/labeltarget)`, not the `[label](/$1target)` that the claimed
`/` + prefix + original-target-without-its-leading-slash would give. -/
theorem linkRewriter_dollar_prefix_cex :
    rewriteUrls (some "$1") "[label](/target)" = "[label](/labeltarget)"
    ∧ "[label](/labeltarget)" ≠ "[label](/$1target)" := by
  constructor
  · show (rewriteList "$1".data "[label](/target)".data).asString = _
    have hd : "[label](/target)".data = '[' :: "label](/target)".data := by decide
    rw [hd, rewriteList_cons_match "$1".data _ _ _ _
      (by decide : matchLink "label](/target)".data =
        some ("label".data, "target".data, [])), rewriteList_nil]
    have he : expandRepl
        ('[' :: ("label".data ++ ']' :: '(' :: '/' :: ("target".data ++ [')'])))
        "label".data "target".data
        ('[' :: '$' :: '1' :: ']' :: '(' :: '/' :: ("$1".data ++ '$' :: '2' :: [')'])) =
        "[label](/labeltarget)".data := by
      simp [expandRepl, takeCapName, splitBrace, capValue, digitsVal, isCapLetter]
    rw [he]
    decide
  · decide

/-- C4 (amended): for every prefix containing no `$` character and every
structured text in which Markdown links (`[label](target)` with bracket-free
labels and targets) are separated by link-free plain segments, the rewriter
replaces the target of every link whose target begins with `/` by `/` +
prefix + target-without-its-leading-slash, leaves every link label
unchanged, and leaves links whose target does not start with `/` — and all
plain text — untouched.  (For prefixes containing `$` the regex crate
expands capture references inside the prefix instead — see the
counterexample.)  In particular `[label](/target)` becomes
`[label](/pre/target)` under prefix `pre/` while `[label](target)` is
unchanged (see the witness). -/
theorem linkRewriter_rootRelative (p : List Char)
    (hp : p.all (fun c => c != '$') = true) :
    ∀ (cs : List Chunk), wfChunks cs = true →
      rewriteList p (render cs) = render (cs.map (rewriteChunk p)) := by
  intro cs
  induction cs with
  | nil =>
    intro _
    simp [render, rewriteList_nil]
  | cons ch rest ih =>
    intro hwf
    cases ch with
    | plain s =>
      simp only [wfChunks, Bool.and_eq_true] at hwf
      rw [render_cons]
      show rewriteList p (s ++ render rest) = _
      rw [rewriteList_pass p s _ (wfPlain_no_open_bracket hwf.1), ih hwf.2]
      rw [List.map_cons, render_cons]
      rfl
    | link l t =>
      simp only [wfChunks, Bool.and_eq_true] at hwf
      obtain ⟨⟨⟨hl, ht⟩, hnext⟩, hrest⟩ := hwf
      have hblocked : blockedB (render rest) = true := by
        cases rest with
        | nil => rfl
        | cons ch2 rest2 =>
          cases ch2 with
          | plain s2 =>
            rw [render_cons]
            show blockedB (s2 ++ render rest2) = true
            simp only [wfChunks, Bool.and_eq_true] at hrest
            refine blockedB_of_nl s2 _ (wfPlain_no_close_bracket hrest.1) ?_
            have := hrest.1
            simp only [wfPlain, Bool.and_eq_true] at this
            exact this.2
          | link l2 t2 => simp at hnext
      have hseg : (l ++ ']' :: '(' :: (t ++ [')'])).all (fun c => c != '[') = true := by
        simp [List.all_append, wfLabel_no_bracket hl]
        have := wfTarget_no_bracket ht
        simp only [List.all_eq_true] at this ⊢
        intro x hx
        simpa using this x hx
      rcases ht' : t with _ | ⟨c, t1⟩
      · -- empty target: not root-relative, the link is left untouched
        subst ht'
        have htt : ([] : List Char).head? ≠ some '/' := by simp
        have hnone := matchLink_nonroot_none l [] (render rest)
          (wfLabel_weak hl) (wfTarget_weak ht) htt hblocked
        rw [render_cons]
        show rewriteList p ('[' :: ((l ++ ']' :: '(' :: ([] ++ [')'])) ++ render rest)) = _
        have hshape : (l ++ ']' :: '(' :: (([] : List Char) ++ [')'])) ++ render rest
            = l ++ ']' :: '(' :: (([] : List Char) ++ ')' :: render rest) := by
          simp
        rw [hshape, rewriteList_cons_none _ _ hnone, ← hshape,
          rewriteList_pass p _ _ hseg, ih hrest]
        rw [List.map_cons, render_cons]
        show _ = renderChunk (rewriteChunk p (.link l [])) ++ _
        rw [show rewriteChunk p (.link l []) = .link l [] by simp [rewriteChunk]]
        rfl
      · by_cases hc : c = '/'
        · -- root-relative target
          subst hc
          have ht1 : t1.all (fun c => c != ')' && c != '\n') = true := by
            have := wfTarget_close (ht' ▸ ht)
            simp only [List.all_cons, Bool.and_eq_true] at this
            exact this.2
          have hm := matchLink_root l t1 (render rest) (wfLabel_weak hl) ht1
          rw [render_cons]
          show rewriteList p ('[' :: ((l ++ ']' :: '(' :: (('/' :: t1) ++ [')'])) ++ render rest)) = _
          have hshape : (l ++ ']' :: '(' :: (('/' :: t1) ++ [')'])) ++ render rest
              = l ++ ']' :: '(' :: '/' :: (t1 ++ ')' :: render rest) := by
            simp
          rw [hshape, rewriteList_cons_match p _ _ _ _ hm, ih hrest,
            expandRepl_template _ l t1 p hp]
          rw [List.map_cons, render_cons]
          show _ = renderChunk (rewriteChunk p (.link l ('/' :: t1))) ++ _
          rw [show rewriteChunk p (.link l ('/' :: t1)) = .link l ('/' :: (p ++ t1)) by
            simp [rewriteChunk]]
          show _ = '[' :: ((l ++ ']' :: '(' :: (('/' :: (p ++ t1)) ++ [')'])) ++ _)
          simp [List.append_assoc]
        · -- non-root target
          have htt : (c :: t1).head? ≠ some '/' := by simp [hc]
          have hnone := matchLink_nonroot_none l (c :: t1) (render rest)
            (wfLabel_weak hl) (wfTarget_weak (ht' ▸ ht)) htt hblocked
          rw [render_cons]
          show rewriteList p ('[' :: ((l ++ ']' :: '(' :: ((c :: t1) ++ [')'])) ++ render rest)) = _
          have hshape : (l ++ ']' :: '(' :: ((c :: t1) ++ [')'])) ++ render rest
              = l ++ ']' :: '(' :: ((c :: t1) ++ ')' :: render rest) := by
            simp
          rw [hshape, rewriteList_cons_none _ _ hnone, ← hshape,
            rewriteList_pass p _ _ (ht' ▸ hseg), ih hrest]
          rw [List.map_cons, render_cons]
          show _ = renderChunk (rewriteChunk p (.link l (c :: t1))) ++ _
          rw [show rewriteChunk p (.link l (c :: t1)) = .link l (c :: t1) by
            simp [rewriteChunk, hc]]
          rfl

/-- C4 witness: the spec scenario — with prefix `pre/`, `[label](/target)`
is rewritten to `[label](/pre/target)` while `[label](target)` (no leading
slash) is unchanged. -/
theorem linkRewriter_rootRelative_witness :
    wfChunks [Chunk.link "label".data "/target".data] = true
    ∧ rewriteUrls (some "pre/") "[label](/target)" = "[label](/pre/target)"
    ∧ rewriteUrls (some "pre/") "[label](target)" = "[label](target)" := by
  refine ⟨by decide, ?_, ?_⟩
  · show (rewriteList "pre/".data "[label](/target)".data).asString = _
    have h := linkRewriter_rootRelative "pre/".data (by decide)
      [Chunk.link "label".data "/target".data] (by decide)
    rw [show render [Chunk.link "label".data "/target".data] =
      "[label](/target)".data by decide] at h
    rw [h]
    decide
  · show (rewriteList "pre/".data "[label](target)".data).asString = _
    have h := linkRewriter_rootRelative "pre/".data (by decide)
      [Chunk.link "label".data "target".data] (by decide)
    rw [show render [Chunk.link "label".data "target".data] =
      "[label](target)".data by decide] at h
    rw [h]
    decide
